import Mathlib

/-!
Verification development for a FASTA/FAI indexed-reading library.

The embedding models the library's pure core:
* `parse_fai_line` (src/parser.rs): the nom parser for one FAI index line;
* `FaiIndex.from_reader` (src/fai.rs): index construction from text lines
  (the asynchronous reader is modelled as the list of lines it yields,
  terminators already stripped, exactly as tokio's `lines()` produces them);
* `FaiIndex.get_region_offsets` / `FaiIndex.get_tid_offsets` (src/fai.rs):
  coordinate-to-byte translation;
* the `Source` implementations (src/contig.rs) and the `Fasta` facade
  (src/fasta.rs); the shared seek-and-read reader is modelled by the byte
  contents of the underlying file (`List Nat`, one `Nat` per byte) together
  with `readExactAt`, since each read is one atomic seek + read_exact.

Machine-integer notes: all five numeric fields are Rust `u64`; the parser's
`map_res(digit1, str::parse)` rejects values of 2^64 or more, which the
embedding enforces in `parse_u64`.  The release-profile semantics of `u64`
is modelled throughout: additions and multiplications wrap modulo 2^64
(`wrap64`; reducing a sum of products once at the end agrees with reducing
after every operation, since `%` commutes with `+` and `*`), division or
remainder by zero panics in every profile (`PResult.divZero`), and
computing a buffer length `end - start` with `end < start` crashes — a
subtraction-overflow panic in debug, an absurd `vec!` allocation in
release (`PResult.subOverflow`).  Seek positions are `u64`, so a file
layout is only meaningful on the `u64`-addressable range — `matchesLayout`
therefore also requires the contig's stored span to end below 2^64, which
keeps every offset computed under its hypotheses wrap-free.

Decoded sequences are modelled as lists of byte values: the Rust code maps
each surviving byte `b` to the char with code point `b`, and for the ASCII
data the layout invariant guarantees (every base byte below 128) this map
is a length- and content-preserving bijection, under which Rust's byte
slicing of `String`s coincides with list slicing.
-/

/-- One FAI index record (src/fai.rs `FaiEntry`). -/
structure FaiEntry where
  name : String
  length : Nat
  offset : Nat
  line_bases : Nat
  line_width : Nat
deriving DecidableEq, Repr

/-- Terminator test used by every decode loop: `b == b'\n' || b == b'\r'`. -/
def termByte (b : Nat) : Bool := b == 10 || b == 13

/-- The decode step shared by all read paths (src/contig.rs, src/fasta.rs):
`buf.into_iter().filter(|&b| b != b'\n' && b != b'\r')`. -/
def decodeBytes (buf : List Nat) : List Nat :=
  buf.filter (fun b => ! termByte b)

/-- nom `take_until("\t")`: the input up to (not including) the first tab,
paired with the rest starting at that tab; fails when no tab occurs. -/
def splitAtTab : List Char → Option (List Char × List Char)
  | [] => none
  | c :: cs =>
    if c = '\t' then some ([], c :: cs)
    else
      match splitAtTab cs with
      | some (pre, post) => some (c :: pre, post)
      | none => none

/-- nom `char('\t')`. -/
def expectTab : List Char → Option (List Char)
  | c :: cs => if c = '\t' then some cs else none
  | [] => none

/-- Numeric value of a digit string. -/
def digitsToNat (ds : List Char) : Nat :=
  ds.foldl (fun a c => a * 10 + (c.toNat - 48)) 0

/-- src/parser.rs `parse_u64`: `map_res(digit1, str::parse)` — one or more
ASCII digits whose value fits in a `u64`. -/
def parse_u64 (cs : List Char) : Option (Nat × List Char) :=
  let ds := cs.takeWhile Char.isDigit
  let rest := cs.dropWhile Char.isDigit
  if ds = [] then none
  else
    let v := digitsToNat ds
    if v < 2 ^ 64 then some (v, rest) else none

/-- nom `line_ending`: `"\n"` or `"\r\n"`. -/
def lineEnding : List Char → Option (List Char)
  | '\n' :: rest => some rest
  | '\r' :: '\n' :: rest => some rest
  | _ => none

/-- src/parser.rs `parse_fai_line`: name up to the first tab, then the four
tab-separated `u64` fields, then a line ending; yields the remaining input
and the parsed entry. -/
def parse_fai_line (input : List Char) : Option (List Char × FaiEntry) :=
  match splitAtTab input with
  | none => none
  | some (name, r1) =>
    match expectTab r1 with
    | none => none
    | some r2 =>
      match parse_u64 r2 with
      | none => none
      | some (length, r3) =>
        match expectTab r3 with
        | none => none
        | some r4 =>
          match parse_u64 r4 with
          | none => none
          | some (offset, r5) =>
            match expectTab r5 with
            | none => none
            | some r6 =>
              match parse_u64 r6 with
              | none => none
              | some (line_bases, r7) =>
                match expectTab r7 with
                | none => none
                | some r8 =>
                  match parse_u64 r8 with
                  | none => none
                  | some (line_width, r9) =>
                    match lineEnding r9 with
                    | none => none
                    | some r10 =>
                      some (r10,
                        ⟨String.mk name, length, offset,
                          line_bases, line_width⟩)

/-- src/error.rs `Error` (the `Io` variant's wrapped platform error is not
further distinguished). -/
inductive Error where
  | NoFAIDX
  | ParseError
  | InvalidRegion
  | IoError
deriving DecidableEq, Repr

/-- Reduction modulo 2^64: the value a chain of wrapping `u64` additions
and multiplications leaves in the register (release profile).  Reducing
the whole expression once equals reducing after every operation. -/
def wrap64 (n : Nat) : Nat := n % 2 ^ 64

/-- Outcome of running code that may crash.  `divZero` is the `u64`
division/remainder-by-zero panic (every build profile); `subOverflow` is
the crash of `vec![0u8; (end - start) as usize]` when `end < start` — a
subtraction-overflow panic in debug, a `vec!` allocation of the wrapped
length in release. -/
inductive PResult (α : Type) where
  | ok : α → PResult α
  | divZero : PResult α
  | subOverflow : PResult α
deriving DecidableEq, Repr

/-- src/fai.rs `FaiIndex`: the `HashMap<String, FaiEntry>` is modelled by
its lookup function. -/
structure FaiIndex where
  entries : String → Option FaiEntry

/-- Insertion as `HashMap::insert`: later lookups of the key see the new
entry, all other keys are unchanged. -/
def insertEntry (m : String → Option FaiEntry) (e : FaiEntry) :
    String → Option FaiEntry :=
  fun k => if k = e.name then some e else m k

/-- Loop body of src/fai.rs `FaiIndex::from_reader`: parse each line with a
`"\n"` appended (the reader strips terminators), stop with `ParseError` on
the first line the parser rejects, otherwise insert. -/
def fromReaderAux : List String → (String → Option FaiEntry) →
    Except Error (String → Option FaiEntry)
  | [], m => .ok m
  | l :: rest, m =>
    match parse_fai_line (l.data ++ ['\n']) with
    | none => .error .ParseError
    | some (_, e) => fromReaderAux rest (insertEntry m e)

/-- src/fai.rs `FaiIndex::from_reader`, over the list of text lines the
reader yields. -/
def FaiIndex.from_reader (lines : List String) : Except Error FaiIndex :=
  match fromReaderAux lines (fun _ => none) with
  | .error e => .error e
  | .ok m => .ok ⟨m⟩

/-- src/fai.rs `FaiIndex::get_region_offsets`.  The two divisions and
remainders are `u64` operations: when `entry.line_bases = 0` the first one
panics, modelled by `PResult.divZero`.  The additions and the
multiplication wrap on overflow (release profile); `wrap64` of the whole
sum agrees with wrapping each operation in turn. -/
def FaiIndex.get_region_offsets (idx : FaiIndex) (chr : String)
    (start stop : Nat) : PResult (Option (Nat × Nat)) :=
  match idx.entries chr with
  | none => .ok none
  | some entry =>
    if start ≥ entry.length ∨ stop > entry.length ∨ start ≥ stop then
      .ok none
    else if entry.line_bases = 0 then
      .divZero
    else
      let start_line := start / entry.line_bases
      let start_offset_in_line := start % entry.line_bases
      let start_file_offset := wrap64
        (entry.offset + start_line * entry.line_width + start_offset_in_line)
      let end_line := stop / entry.line_bases
      let end_offset_in_line := stop % entry.line_bases
      let end_file_offset := wrap64
        (entry.offset + end_line * entry.line_width + end_offset_in_line)
      .ok (some (start_file_offset, end_file_offset))

/-- src/fai.rs `FaiIndex::get_tid_offsets`; the `u64` addition
`entry.offset + entry.length` wraps on overflow (release profile). -/
def FaiIndex.get_tid_offsets (idx : FaiIndex) (tid : String) :
    Option (Nat × Nat) :=
  match idx.entries tid with
  | none => none
  | some entry =>
    some (entry.offset, wrap64 (entry.offset + entry.length))

/-- One atomic `seek(SeekFrom::Start(pos))` + `read_exact(&mut buf)` with
`buf.len() = len` against a file whose bytes are `file`: seeking anywhere
succeeds, `read_exact` succeeds exactly when `len` bytes are available at
`pos` (a zero-length read always succeeds). -/
def readExactAt (file : List Nat) (pos len : Nat) : Except Error (List Nat) :=
  if len ≤ file.length - pos then .ok ((file.drop pos).take len)
  else .error .IoError

/-- The bytes of `file` in the half-open range `[a, b)`. -/
def sliceFile (file : List Nat) (a b : Nat) : List Nat :=
  (file.drop a).take (b - a)

/-- src/contig.rs `MemoryContig::sequence`. -/
def MemoryContig.sequence (s : List Nat) : Option (List Nat) := some s

/-- src/contig.rs `MemoryContig::read_region`: rejects `end > len` and
`start > end`, then slices (`String::get` on an in-range ASCII byte range
always yields `Some`). -/
def MemoryContig.read_region (s : List Nat) (start stop : Nat) :
    Option (List Nat) :=
  if stop > s.length ∨ start > stop then none
  else some ((s.drop start).take (stop - start))

/-- src/contig.rs `FileContig::sequence`: whole-contig offsets via the
index, then the buffer of `file_end - file_start` bytes (a crash when the
wrapped end offset is below the start), then one atomic seek + read_exact,
then decode; every error value is collapsed to `none`. -/
def FileContig.sequence (index : Option FaiIndex) (tid : String)
    (file : List Nat) : PResult (Option (List Nat)) :=
  match index with
  | none => .ok none
  | some idx =>
    match idx.get_tid_offsets tid with
    | none => .ok none
    | some (s, e) =>
      if e < s then .subOverflow
      else
        match readExactAt file s (e - s) with
        | .error _ => .ok none
        | .ok buf => .ok (some (decodeBytes buf))

/-- src/contig.rs `FileContig::read_region`: region offsets via the index,
then the buffer of `file_end - file_start` bytes (a crash when the end
offset is below the start), then one atomic seek + read_exact, then
decode; every error value is collapsed to `none` (panics are not return
values and are kept apart in `PResult`). -/
def FileContig.read_region (index : Option FaiIndex) (tid : String)
    (file : List Nat) (start stop : Nat) : PResult (Option (List Nat)) :=
  match index with
  | none => .ok none
  | some idx =>
    match idx.get_region_offsets tid start stop with
    | .divZero => .divZero
    | .subOverflow => .subOverflow
    | .ok none => .ok none
    | .ok (some (s, e)) =>
      if e < s then .subOverflow
      else
        match readExactAt file s (e - s) with
        | .error _ => .ok none
        | .ok buf => .ok (some (decodeBytes buf))

/-- The two `Source` implementations of src/contig.rs. -/
inductive SourceM where
  | memory (sequence : List Nat)
  | fileBacked (tid : String) (index : Option FaiIndex)

/-- src/contig.rs `Contig`: a name plus one `Source`. -/
structure Contig where
  tid : String
  source : SourceM

/-- Trait dispatch of `Source::read_region` over the two implementations. -/
def SourceM.read_region (src : SourceM) (file : List Nat)
    (start stop : Nat) : PResult (Option (List Nat)) :=
  match src with
  | .memory s => .ok (MemoryContig.read_region s start stop)
  | .fileBacked tid index => FileContig.read_region index tid file start stop

/-- Trait dispatch of `Source::sequence` over the two implementations. -/
def SourceM.sequence (src : SourceM) (file : List Nat) :
    PResult (Option (List Nat)) :=
  match src with
  | .memory s => .ok (MemoryContig.sequence s)
  | .fileBacked tid index => FileContig.sequence index tid file

/-- src/fasta.rs `Fasta::read_region`: `NoFAIDX` without an index,
`InvalidRegion` when translation yields none, then the buffer of
`file_end - file_start` bytes (a crash when the end offset is below the
start), then seek + read_exact + decode with I/O errors propagated to the
caller. -/
def Fasta.read_region (index : Option FaiIndex) (file : List Nat)
    (tid : String) (start stop : Nat) : PResult (Except Error (List Nat)) :=
  match index with
  | none => .ok (.error .NoFAIDX)
  | some idx =>
    match idx.get_region_offsets tid start stop with
    | .divZero => .divZero
    | .subOverflow => .subOverflow
    | .ok none => .ok (.error .InvalidRegion)
    | .ok (some (s, e)) =>
      if e < s then .subOverflow
      else
        match readExactAt file s (e - s) with
        | .error er => .ok (.error er)
        | .ok buf => .ok (.ok (decodeBytes buf))

/-- src/fasta.rs `Fasta::read_mmap_tid`: eager single-contig
materialization into a `MemoryContig` (the buffer of
`file_end - file_start` bytes crashes when the wrapped end offset is
below the start). -/
def Fasta.read_mmap_tid (index : Option FaiIndex) (file : List Nat)
    (tid : String) : PResult (Except Error Contig) :=
  match index with
  | none => .ok (.error .NoFAIDX)
  | some idx =>
    match idx.get_tid_offsets tid with
    | none => .ok (.error .InvalidRegion)
    | some (s, e) =>
      if e < s then .subOverflow
      else
        match readExactAt file s (e - s) with
        | .error er => .ok (.error er)
        | .ok buf => .ok (.ok ⟨tid, .memory (decodeBytes buf)⟩)

/-- src/fasta.rs `Fasta::read_io_tid`: lazy single-contig materialization;
it performs no lookup and no I/O. -/
def Fasta.read_io_tid (index : Option FaiIndex) (tid : String) :
    Except Error Contig :=
  .ok ⟨tid, .fileBacked tid index⟩

/-- The grid arithmetic of `get_region_offsets` for one coordinate:
`offset + (c / line_bases) * line_width + c % line_bases`. -/
def byteOffset (e : FaiEntry) (c : Nat) : Nat :=
  e.offset + (c / e.line_bases) * e.line_width + c % e.line_bases

/-- The base bytes of the file at coordinates `a, a+1, ..., a+n-1` of the
entry's grid. -/
def baseList (e : FaiEntry) (file : List Nat) (a n : Nat) : List Nat :=
  (List.range n).map (fun t => file.getD (byteOffset e (a + t)) 0)

/-- The file realizes the entry's fixed-width line-wrapped layout: every
base coordinate below `length` addresses an in-bounds, non-terminator
ASCII byte; every in-bounds grid position that is not a base slot
(remainder at least `line_bases` within its physical line) holds a
terminator byte; and the stored span ends inside the `u64`-addressable
range (seek positions are `u64`), so every byte offset of the span is
wrap-free. -/
def matchesLayout (file : List Nat) (e : FaiEntry) : Prop :=
  (∀ i, i < e.length →
    byteOffset e i < file.length ∧
    termByte (file.getD (byteOffset e i) 0) = false ∧
    file.getD (byteOffset e i) 0 < 128) ∧
  (∀ p, p < byteOffset e e.length → e.offset ≤ p →
    e.line_bases ≤ (p - e.offset) % e.line_width →
    p < file.length ∧ termByte (file.getD p 0) = true) ∧
  byteOffset e e.length < 2 ^ 64

instance (file : List Nat) (e : FaiEntry) : Decidable (matchesLayout file e) := by
  unfold matchesLayout
  infer_instance

/-- Last-occurrence lookup: the entry of the final element of `es` carrying
the given name, if any. -/
def lastWins : List FaiEntry → String → Option FaiEntry
  | [], _ => none
  | e :: es, name =>
    match lastWins es name with
    | some x => some x
    | none => if name = e.name then some e else none

/-- The entry contributed by one text line, if the parser accepts it. -/
def parsedLine (l : String) : Option FaiEntry :=
  (parse_fai_line (l.data ++ ['\n'])).map Prod.snd

/-- All entries contributed by a list of text lines, in order, skipping
rejected lines. -/
def extractEntries (lines : List String) : List FaiEntry :=
  lines.filterMap parsedLine

/-- Entry of the repository's own test fixture: `chr1\t12\t6\t12\t13`. -/
def centry1 : FaiEntry := ⟨"chr1", 12, 6, 12, 13⟩

/-- Index holding exactly `centry1`. -/
def cIdx1 : FaiIndex := ⟨insertEntry (fun _ => none) centry1⟩

/-- Bytes of the test fixture file `>chr1\nACGTACGTACGT\n`. -/
def cFile1 : List Nat :=
  [62, 99, 104, 114, 49, 10,
   65, 67, 71, 84, 65, 67, 71, 84, 65, 67, 71, 84, 10]

/-- Decoded sequence of `chr1` in the fixture. -/
def cSeq1 : List Nat := [65, 67, 71, 84, 65, 67, 71, 84, 65, 67, 71, 84]

/-- A two-line contig: 16 bases, 8 per line, 9 bytes per line, offset 0. -/
def centry2 : FaiEntry := ⟨"c", 16, 0, 8, 9⟩

/-- Index holding exactly `centry2`. -/
def cIdx2 : FaiIndex := ⟨insertEntry (fun _ => none) centry2⟩

/-- File realizing `centry2`: eight `A`s, newline, eight `B`s, newline. -/
def cFile2 : List Nat :=
  [65, 65, 65, 65, 65, 65, 65, 65, 10,
   66, 66, 66, 66, 66, 66, 66, 66, 10]

/-- What `read_mmap_tid` decodes for `centry2`: the byte range
`[0, 16)` holds only the first 15 bases (one slot is the newline). -/
def cSeq2 : List Nat :=
  [65, 65, 65, 65, 65, 65, 65, 65, 66, 66, 66, 66, 66, 66, 66]

/-- An entry the parser accepts with `line_bases = 0`. -/
def zEntry : FaiEntry := ⟨"z", 4, 0, 0, 1⟩

/-- Index holding exactly `zEntry`. -/
def zIdx : FaiIndex := ⟨insertEntry (fun _ => none) zEntry⟩

/-- The index line producing `zEntry`. -/
def zLine : String := "z\t4\t0\t0\t1"

/-- Two well-formed index lines sharing the name `a`. -/
def dupLines : List String := ["a\t5\t0\t5\t6", "a\t7\t9\t7\t8"]

/-- A parser-accepted entry whose offset sits at the top of the `u64`
range, so the grid arithmetic overflows on bounds-accepted ranges. -/
def hEntry : FaiEntry := ⟨"h", 3, 2 ^ 64 - 1, 1, 2⟩

/-- Index holding exactly `hEntry`. -/
def hIdx : FaiIndex := ⟨insertEntry (fun _ => none) hEntry⟩

/-- The index line producing `hEntry`. -/
def hLine : String := "h\t3\t18446744073709551615\t1\t2"

/-- A parser-accepted entry with `line_width < line_bases`, for which
region translation returns a byte range with end below start. -/
def aEntry : FaiEntry := ⟨"a", 4, 0, 4, 2⟩

/-- Index holding exactly `aEntry`. -/
def aIdx : FaiIndex := ⟨insertEntry (fun _ => none) aEntry⟩

/-- The index line producing `aEntry`. -/
def aLine : String := "a\t4\t0\t4\t2"

/-- Some file bytes to read `aEntry` against. -/
def aFile : List Nat := [65, 65, 65, 65, 65, 65]

lemma offset_le_byteOffset (e : FaiEntry) (c : Nat) :
    e.offset ≤ byteOffset e c := by
  unfold byteOffset
  omega

lemma byteOffset_succ_le (e : FaiEntry) (hlb : 1 ≤ e.line_bases)
    (hlw : e.line_bases ≤ e.line_width) (i : Nat) :
    byteOffset e i + 1 ≤ byteOffset e (i + 1) := by
  have hlb0 : 0 < e.line_bases := hlb
  have hr : i % e.line_bases < e.line_bases := Nat.mod_lt _ hlb0
  by_cases hc : i % e.line_bases + 1 < e.line_bases
  · have hid := Nat.div_add_mod i e.line_bases
    have h1 : i + 1
        = e.line_bases * (i / e.line_bases) + (i % e.line_bases + 1) := by
      omega
    have hdiv : (i + 1) / e.line_bases = i / e.line_bases := by
      rw [h1, Nat.mul_add_div hlb0, Nat.div_eq_of_lt hc, Nat.add_zero]
    have hmod : (i + 1) % e.line_bases = i % e.line_bases + 1 := by
      rw [h1, Nat.mul_add_mod, Nat.mod_eq_of_lt hc]
    unfold byteOffset
    rw [hdiv, hmod]
    omega
  · have hid := Nat.div_add_mod i e.line_bases
    have h1 : i + 1 = e.line_bases * (i / e.line_bases + 1) := by
      rw [Nat.mul_add, Nat.mul_one]
      omega
    have hdiv : (i + 1) / e.line_bases = i / e.line_bases + 1 := by
      rw [h1, Nat.mul_div_cancel_left _ hlb0]
    have hmod : (i + 1) % e.line_bases = 0 := by
      rw [h1, Nat.mul_mod_right]
    unfold byteOffset
    rw [hdiv, hmod]
    have hdist : (i / e.line_bases + 1) * e.line_width
        = i / e.line_bases * e.line_width + e.line_width := by
      ring
    omega

lemma byteOffset_le_mono (e : FaiEntry) (hlb : 1 ≤ e.line_bases)
    (hlw : e.line_bases ≤ e.line_width) {i j : Nat} (h : i ≤ j) :
    byteOffset e i ≤ byteOffset e j := by
  induction j with
  | zero =>
    have h0 : i = 0 := by omega
    rw [h0]
  | succ n ih =>
    by_cases hc : i ≤ n
    · have h1 := ih hc
      have h2 := byteOffset_succ_le e hlb hlw n
      omega
    · have h1 : i = n + 1 := by omega
      rw [h1]

lemma byteOffset_lt_mono (e : FaiEntry) (hlb : 1 ≤ e.line_bases)
    (hlw : e.line_bases ≤ e.line_width) {i j : Nat} (h : i < j) :
    byteOffset e i < byteOffset e j := by
  have h1 := byteOffset_succ_le e hlb hlw i
  have h2 := byteOffset_le_mono e hlb hlw (show i + 1 ≤ j from h)
  omega

lemma lt_of_byteOffset_lt (e : FaiEntry) (hlb : 1 ≤ e.line_bases)
    (hlw : e.line_bases ≤ e.line_width) {i j : Nat}
    (h : byteOffset e i < byteOffset e j) : i < j := by
  by_contra hc
  have := byteOffset_le_mono e hlb hlw (Nat.le_of_not_lt hc)
  omega

lemma eq_byteOffset_of_low_mod (e : FaiEntry) (hlb : 1 ≤ e.line_bases)
    {p : Nat} (hp : e.offset ≤ p)
    (hr : (p - e.offset) % e.line_width < e.line_bases) :
    p = byteOffset e
      ((p - e.offset) / e.line_width * e.line_bases
        + (p - e.offset) % e.line_width) := by
  have hlb0 : 0 < e.line_bases := hlb
  have hj : (p - e.offset) / e.line_width * e.line_bases
        + (p - e.offset) % e.line_width
      = e.line_bases * ((p - e.offset) / e.line_width)
        + (p - e.offset) % e.line_width := by
    ring
  have hdiv : ((p - e.offset) / e.line_width * e.line_bases
        + (p - e.offset) % e.line_width) / e.line_bases
      = (p - e.offset) / e.line_width := by
    rw [hj, Nat.mul_add_div hlb0, Nat.div_eq_of_lt hr, Nat.add_zero]
  have hmod : ((p - e.offset) / e.line_width * e.line_bases
        + (p - e.offset) % e.line_width) % e.line_bases
      = (p - e.offset) % e.line_width := by
    rw [hj, Nat.mul_add_mod, Nat.mod_eq_of_lt hr]
  unfold byteOffset
  rw [hdiv, hmod]
  have hdm := Nat.div_add_mod (p - e.offset) e.line_width
  have hcomm : e.line_width * ((p - e.offset) / e.line_width)
      = (p - e.offset) / e.line_width * e.line_width := Nat.mul_comm ..
  omega

lemma span_pos_lt_flen (e : FaiEntry) (file : List Nat)
    (hm : matchesLayout file e) (hlb : 1 ≤ e.line_bases)
    (hlw : e.line_bases ≤ e.line_width) {p : Nat}
    (h1 : e.offset ≤ p) (h2 : p < byteOffset e e.length) : p < file.length := by
  by_cases hr : (p - e.offset) % e.line_width < e.line_bases
  · have hpe := eq_byteOffset_of_low_mod e hlb h1 hr
    have hj : (p - e.offset) / e.line_width * e.line_bases
        + (p - e.offset) % e.line_width < e.length := by
      apply lt_of_byteOffset_lt e hlb hlw
      rw [← hpe]
      exact h2
    have hb := (hm.1 _ hj).1
    rw [← hpe] at hb
    exact hb
  · exact (hm.2.1 p h2 h1 (Nat.le_of_not_lt hr)).1

lemma byteOffset_le_flen (e : FaiEntry) (file : List Nat)
    (hm : matchesLayout file e) (hlb : 1 ≤ e.line_bases)
    (hlw : e.line_bases ≤ e.line_width) {m : Nat}
    (h1 : 1 ≤ m) (h2 : m ≤ e.length) : byteOffset e m ≤ file.length := by
  have hs := byteOffset_succ_le e hlb hlw (m - 1)
  have hm1 : m - 1 + 1 = m := by omega
  rw [hm1] at hs
  have hof : e.offset ≤ byteOffset e (m - 1) := offset_le_byteOffset ..
  have hmono := byteOffset_le_mono e hlb hlw h2
  have hlt : byteOffset e m - 1 < byteOffset e e.length := by omega
  have hge : e.offset ≤ byteOffset e m - 1 := by omega
  have := span_pos_lt_flen e file hm hlb hlw hge hlt
  omega

lemma get_region_offsets_accepted (idx : FaiIndex) (chr : String)
    (e : FaiEntry) (he : idx.entries chr = some e) (hlb : 1 ≤ e.line_bases)
    {start stop : Nat} (h1 : start < e.length) (h2 : stop ≤ e.length)
    (h3 : start < stop) :
    idx.get_region_offsets chr start stop
      = .ok (some (wrap64 (byteOffset e start), wrap64 (byteOffset e stop))) := by
  simp only [FaiIndex.get_region_offsets, he]
  rw [if_neg (by omega), if_neg (by omega)]
  rfl

lemma byteOffset_lt_u64 (e : FaiEntry) (file : List Nat)
    (hm : matchesLayout file e) (hlb : 1 ≤ e.line_bases)
    (hlw : e.line_bases ≤ e.line_width) {m : Nat} (h : m ≤ e.length) :
    byteOffset e m < 2 ^ 64 :=
  lt_of_le_of_lt (byteOffset_le_mono e hlb hlw h) hm.2.2

lemma le_byteOffset_self (e : FaiEntry)
    (hlw : e.line_bases ≤ e.line_width) (c : Nat) :
    e.offset + c ≤ byteOffset e c := by
  unfold byteOffset
  have hdm := Nat.div_add_mod c e.line_bases
  have h1 : c / e.line_bases * e.line_bases ≤ c / e.line_bases * e.line_width :=
    Nat.mul_le_mul (le_refl _) hlw
  have hcomm : e.line_bases * (c / e.line_bases)
      = c / e.line_bases * e.line_bases := Nat.mul_comm ..
  omega

lemma get_region_offsets_accepted_u64 (idx : FaiIndex) (chr : String)
    (file : List Nat) (e : FaiEntry) (he : idx.entries chr = some e)
    (hlb : 1 ≤ e.line_bases) (hlw : e.line_bases ≤ e.line_width)
    (hm : matchesLayout file e) {start stop : Nat} (h1 : start < e.length)
    (h2 : stop ≤ e.length) (h3 : start < stop) :
    idx.get_region_offsets chr start stop
      = .ok (some (byteOffset e start, byteOffset e stop)) := by
  rw [get_region_offsets_accepted idx chr e he hlb h1 h2 h3]
  unfold wrap64
  rw [Nat.mod_eq_of_lt (byteOffset_lt_u64 e file hm hlb hlw h1.le),
    Nat.mod_eq_of_lt (byteOffset_lt_u64 e file hm hlb hlw h2)]

lemma decodeBytes_append (l1 l2 : List Nat) :
    decodeBytes (l1 ++ l2) = decodeBytes l1 ++ decodeBytes l2 :=
  List.filter_append ..

lemma length_baseList (e : FaiEntry) (file : List Nat) (a n : Nat) :
    (baseList e file a n).length = n := by
  unfold baseList
  rw [List.length_map, List.length_range]

lemma baseList_succ (e : FaiEntry) (file : List Nat) (a n : Nat) :
    baseList e file a (n + 1)
      = baseList e file a n ++ [file.getD (byteOffset e (a + n)) 0] := by
  unfold baseList
  rw [show n + 1 = n.succ from rfl, List.range_succ, List.map_append]
  rfl

lemma sliceFile_split (file : List Nat) {a b c : Nat}
    (h1 : a ≤ b) (h2 : b ≤ c) :
    sliceFile file a c = sliceFile file a b ++ sliceFile file b c := by
  unfold sliceFile
  have h3 : c - a = (b - a) + (c - b) := by omega
  rw [h3, List.take_add, List.drop_drop]
  have h4 : a + (b - a) = b := by omega
  rw [h4]

lemma decode_step (file : List Nat) {x y : Nat} (hxy : x < y)
    (hyl : y ≤ file.length)
    (hx : termByte (file.getD x 0) = false)
    (hmid : ∀ p, x < p → p < y → termByte (file.getD p 0) = true) :
    decodeBytes (sliceFile file x y) = [file.getD x 0] := by
  have hxl : x < file.length := by omega
  have hget : file.getD x 0 = file[x] := by
    rw [List.getD_eq_getElem?_getD, List.getElem?_eq_getElem hxl]
    rfl
  have hT : List.filter (fun b => ! termByte b)
      ((file.drop (x + 1)).take (y - x - 1)) = [] := by
    apply List.filter_eq_nil_iff.mpr
    intro b hb
    obtain ⟨i, hi⟩ := List.mem_iff_getElem?.mp hb
    rw [List.getElem?_take] at hi
    by_cases hc : i < y - x - 1
    · rw [if_pos hc, List.getElem?_drop] at hi
      have hp := hmid (x + 1 + i) (by omega) (by omega)
      have hbv : file.getD (x + 1 + i) 0 = b := by
        rw [List.getD_eq_getElem?_getD, hi]
        rfl
      rw [hbv] at hp
      simp [hp]
    · rw [if_neg hc] at hi
      exact absurd hi (by simp)
  unfold sliceFile decodeBytes
  rw [List.drop_eq_getElem_cons hxl]
  rw [show y - x = (y - x - 1) + 1 by omega, List.take_succ_cons]
  rw [List.filter_cons, if_pos (by rw [← hget, hx]; rfl), hT, hget]

lemma mid_term (e : FaiEntry) (file : List Nat) (hm : matchesLayout file e)
    (hlb : 1 ≤ e.line_bases) (hlw : e.line_bases ≤ e.line_width)
    {m : Nat} (hmlen : m + 1 ≤ e.length) {p : Nat}
    (h1 : byteOffset e m < p) (h2 : p < byteOffset e (m + 1)) :
    termByte (file.getD p 0) = true := by
  have hof : e.offset ≤ byteOffset e m := offset_le_byteOffset ..
  have hple : p < byteOffset e e.length :=
    lt_of_lt_of_le h2 (byteOffset_le_mono e hlb hlw hmlen)
  by_cases hr : (p - e.offset) % e.line_width < e.line_bases
  · exfalso
    have hpe := eq_byteOffset_of_low_mod e hlb (show e.offset ≤ p by omega) hr
    rw [hpe] at h1 h2
    have hj1 := lt_of_byteOffset_lt e hlb hlw h1
    have hj2 := lt_of_byteOffset_lt e hlb hlw h2
    omega
  · exact (hm.2.1 p hple (by omega) (Nat.le_of_not_lt hr)).2

lemma decode_slice_eq (e : FaiEntry) (file : List Nat)
    (hm : matchesLayout file e) (hlb : 1 ≤ e.line_bases)
    (hlw : e.line_bases ≤ e.line_width) :
    ∀ n a, a + n ≤ e.length →
    decodeBytes (sliceFile file (byteOffset e a) (byteOffset e (a + n)))
      = baseList e file a n := by
  intro n
  induction n with
  | zero =>
    intro a _
    rw [Nat.add_zero]
    unfold sliceFile
    rw [Nat.sub_self]
    rfl
  | succ n ih =>
    intro a ha
    have hm1 : a + n < e.length := by omega
    rw [show a + (n + 1) = (a + n) + 1 by omega]
    rw [sliceFile_split file
      (byteOffset_le_mono e hlb hlw (show a ≤ a + n by omega))
      (le_of_lt (byteOffset_lt_mono e hlb hlw (show a + n < a + n + 1 by omega)))]
    rw [decodeBytes_append, ih a (by omega)]
    rw [decode_step file
      (byteOffset_lt_mono e hlb hlw (show a + n < a + n + 1 by omega))
      (byteOffset_le_flen e file hm hlb hlw (show 1 ≤ a + n + 1 by omega)
        (show a + n + 1 ≤ e.length by omega))
      ((hm.1 (a + n) hm1).2.1)
      (fun p hp1 hp2 => mid_term e file hm hlb hlw
        (show a + n + 1 ≤ e.length by omega) hp1 hp2)]
    rw [baseList_succ]

lemma readExactAt_ok (file : List Nat) (pos len : Nat)
    (h : pos + len ≤ file.length ∨ len = 0) :
    readExactAt file pos len = .ok (sliceFile file pos (pos + len)) := by
  unfold readExactAt sliceFile
  rw [if_pos (by omega), Nat.add_sub_cancel_left]

lemma read_decode_region (e : FaiEntry) (file : List Nat)
    (hm : matchesLayout file e) (hlb : 1 ≤ e.line_bases)
    (hlw : e.line_bases ≤ e.line_width) {start stop : Nat}
    (h3 : start < stop) (h2 : stop ≤ e.length) :
    readExactAt file (byteOffset e start)
        (byteOffset e stop - byteOffset e start)
      = .ok (sliceFile file (byteOffset e start) (byteOffset e stop)) ∧
    decodeBytes (sliceFile file (byteOffset e start) (byteOffset e stop))
      = baseList e file start (stop - start) := by
  have hmono := byteOffset_le_mono e hlb hlw (le_of_lt h3)
  have hfl := byteOffset_le_flen e file hm hlb hlw
    (show 1 ≤ stop by omega) h2
  have hok := readExactAt_ok file (byteOffset e start)
    (byteOffset e stop - byteOffset e start) (by omega)
  rw [show byteOffset e start + (byteOffset e stop - byteOffset e start)
      = byteOffset e stop by omega] at hok
  refine ⟨hok, ?_⟩
  have hds := decode_slice_eq e file hm hlb hlw (stop - start) start (by omega)
  rw [show start + (stop - start) = stop by omega] at hds
  exact hds

lemma Fasta_read_region_ok (idx : FaiIndex) (file : List Nat) (chr : String)
    (e : FaiEntry) (he : idx.entries chr = some e) (hlb : 1 ≤ e.line_bases)
    (hlw : e.line_bases ≤ e.line_width) (hm : matchesLayout file e)
    {start stop : Nat} (h3 : start < stop) (h2 : stop ≤ e.length) :
    Fasta.read_region (some idx) file chr start stop
      = .ok (.ok (baseList e file start (stop - start))) := by
  obtain ⟨hok, hdec⟩ := read_decode_region e file hm hlb hlw h3 h2
  have hmono := byteOffset_lt_mono e hlb hlw h3
  simp only [Fasta.read_region,
    get_region_offsets_accepted_u64 idx chr file e he hlb hlw hm
      (by omega) h2 h3]
  rw [if_neg (by omega)]
  simp only [hok, hdec]

lemma FileContig_read_region_ok (idx : FaiIndex) (file : List Nat)
    (tid : String) (e : FaiEntry) (he : idx.entries tid = some e)
    (hlb : 1 ≤ e.line_bases) (hlw : e.line_bases ≤ e.line_width)
    (hm : matchesLayout file e) {start stop : Nat}
    (h3 : start < stop) (h2 : stop ≤ e.length) :
    FileContig.read_region (some idx) tid file start stop
      = .ok (some (baseList e file start (stop - start))) := by
  obtain ⟨hok, hdec⟩ := read_decode_region e file hm hlb hlw h3 h2
  have hmono := byteOffset_lt_mono e hlb hlw h3
  simp only [FileContig.read_region,
    get_region_offsets_accepted_u64 idx tid file e he hlb hlw hm
      (by omega) h2 h3]
  rw [if_neg (by omega)]
  simp only [hok, hdec]

lemma FileContig_read_region_none (idx : FaiIndex) (tid : String)
    (file : List Nat) (start stop : Nat)
    (h : idx.get_region_offsets tid start stop = .ok none) :
    FileContig.read_region (some idx) tid file start stop = .ok none := by
  simp only [FileContig.read_region, h]

lemma Fasta_read_region_invalid (idx : FaiIndex) (file : List Nat)
    (tid : String) (start stop : Nat)
    (h : idx.get_region_offsets tid start stop = .ok none) :
    Fasta.read_region (some idx) file tid start stop
      = .ok (.error .InvalidRegion) := by
  simp only [Fasta.read_region, h]

lemma get_tid_offsets_some (idx : FaiIndex) (tid : String) (e : FaiEntry)
    (he : idx.entries tid = some e) :
    idx.get_tid_offsets tid
      = some (e.offset, wrap64 (e.offset + e.length)) := by
  simp only [FaiIndex.get_tid_offsets, he]

lemma get_tid_offsets_some_u64 (idx : FaiIndex) (tid : String)
    (e : FaiEntry) (he : idx.entries tid = some e)
    (h64 : e.offset + e.length < 2 ^ 64) :
    idx.get_tid_offsets tid = some (e.offset, e.offset + e.length) := by
  rw [get_tid_offsets_some idx tid e he]
  unfold wrap64
  rw [Nat.mod_eq_of_lt h64]

lemma get_tid_offsets_none (idx : FaiIndex) (tid : String)
    (he : idx.entries tid = none) :
    idx.get_tid_offsets tid = none := by
  simp only [FaiIndex.get_tid_offsets, he]

lemma byteOffset_inline (e : FaiEntry) {i : Nat} (hi : i < e.line_bases) :
    byteOffset e i = e.offset + i := by
  unfold byteOffset
  rw [Nat.div_eq_of_lt hi, Nat.mod_eq_of_lt hi, Nat.zero_mul]
  omega

lemma inline_slice_eq_baseList (e : FaiEntry) (file : List Nat)
    (hm : matchesLayout file e) (hsl : e.length ≤ e.line_bases)
    (a k : Nat) (hak : a + k ≤ e.length) :
    sliceFile file (e.offset + a) (e.offset + a + k) = baseList e file a k := by
  apply List.ext_getElem?
  intro i
  unfold sliceFile baseList
  rw [show e.offset + a + k - (e.offset + a) = k by omega]
  rw [List.getElem?_take, List.getElem?_map]
  by_cases hc : i < k
  · rw [if_pos hc, List.getElem?_drop, List.getElem?_range hc]
    have hlt : a + i < e.length := by omega
    have hin : byteOffset e (a + i) = e.offset + (a + i) :=
      byteOffset_inline e (by omega)
    have hfl := (hm.1 (a + i) hlt).1
    rw [hin] at hfl
    rw [show e.offset + a + i = e.offset + (a + i) by omega]
    rw [List.getElem?_eq_getElem hfl]
    rw [Option.map_some']
    rw [hin, List.getD_eq_getElem?_getD, List.getElem?_eq_getElem hfl]
    rfl
  · rw [if_neg hc]
    rw [List.getElem?_eq_none (by rw [List.length_range]; omega)]
    rfl

lemma baseList_drop_take (e : FaiEntry) (file : List Nat) {start k L : Nat}
    (h : start + k ≤ L) :
    ((baseList e file 0 L).drop start).take k = baseList e file start k := by
  apply List.ext_getElem?
  intro i
  rw [List.getElem?_take]
  by_cases hc : i < k
  · rw [if_pos hc, List.getElem?_drop]
    unfold baseList
    rw [List.getElem?_map, List.getElem?_map]
    rw [List.getElem?_range (show start + i < L by omega),
      List.getElem?_range hc]
    rw [Option.map_some', Option.map_some', Nat.zero_add]
  · rw [if_neg hc]
    unfold baseList
    rw [List.getElem?_map]
    rw [List.getElem?_eq_none (by rw [List.length_range]; omega)]
    rfl

lemma decode_baseList (e : FaiEntry) (file : List Nat)
    (hm : matchesLayout file e) (a k : Nat) (hak : a + k ≤ e.length) :
    decodeBytes (baseList e file a k) = baseList e file a k := by
  apply List.filter_eq_self.mpr
  intro b hb
  unfold baseList at hb
  obtain ⟨t, ht, hbt⟩ := List.mem_map.mp hb
  have htk : t < k := List.mem_range.mp ht
  have hterm := (hm.1 (a + t) (by omega)).2.1
  rw [hbt] at hterm
  simp [hterm]

lemma read_mmap_tid_ok (idx : FaiIndex) (file : List Nat) (tid : String)
    (e : FaiEntry) (he : idx.entries tid = some e)
    (hm : matchesLayout file e) (hlw : e.line_bases ≤ e.line_width)
    (hsl : e.length ≤ e.line_bases) :
    Fasta.read_mmap_tid (some idx) file tid
      = .ok (.ok ⟨tid, .memory (baseList e file 0 e.length)⟩) := by
  have h64 : e.offset + e.length < 2 ^ 64 :=
    lt_of_le_of_lt (le_byteOffset_self e hlw e.length) hm.2.2
  have hTO := get_tid_offsets_some_u64 idx tid e he h64
  have hread : readExactAt file e.offset (e.offset + e.length - e.offset)
      = .ok (sliceFile file e.offset (e.offset + e.length)) := by
    rcases Nat.eq_zero_or_pos e.length with h0 | h0
    · have := readExactAt_ok file e.offset e.length (Or.inr h0)
      rw [show e.offset + e.length - e.offset = e.length by omega]
      exact this
    · have hlast := (hm.1 (e.length - 1) (by omega)).1
      rw [byteOffset_inline e (show e.length - 1 < e.line_bases by omega)]
        at hlast
      have := readExactAt_ok file e.offset e.length (Or.inl (by omega))
      rw [show e.offset + e.length - e.offset = e.length by omega]
      exact this
  have hslice : sliceFile file e.offset (e.offset + e.length)
      = baseList e file 0 e.length := by
    have h1 := inline_slice_eq_baseList e file hm hsl 0 e.length (by omega)
    rw [Nat.add_zero] at h1
    exact h1
  simp only [Fasta.read_mmap_tid, hTO]
  rw [if_neg (by omega)]
  simp only [hread, hslice,
    decode_baseList e file hm 0 e.length (by omega)]

lemma FileContig_sequence_inline (idx : FaiIndex) (file : List Nat)
    (tid : String) (e : FaiEntry) (he : idx.entries tid = some e)
    (hm : matchesLayout file e) (hlw : e.line_bases ≤ e.line_width)
    (hsl : e.length ≤ e.line_bases) :
    FileContig.sequence (some idx) tid file
      = .ok (some (baseList e file 0 e.length)) := by
  have h64 : e.offset + e.length < 2 ^ 64 :=
    lt_of_le_of_lt (le_byteOffset_self e hlw e.length) hm.2.2
  have hTO := get_tid_offsets_some_u64 idx tid e he h64
  have hread : readExactAt file e.offset (e.offset + e.length - e.offset)
      = .ok (sliceFile file e.offset (e.offset + e.length)) := by
    rcases Nat.eq_zero_or_pos e.length with h0 | h0
    · have := readExactAt_ok file e.offset e.length (Or.inr h0)
      rw [show e.offset + e.length - e.offset = e.length by omega]
      exact this
    · have hlast := (hm.1 (e.length - 1) (by omega)).1
      rw [byteOffset_inline e (show e.length - 1 < e.line_bases by omega)]
        at hlast
      have := readExactAt_ok file e.offset e.length (Or.inl (by omega))
      rw [show e.offset + e.length - e.offset = e.length by omega]
      exact this
  have hslice : sliceFile file e.offset (e.offset + e.length)
      = baseList e file 0 e.length := by
    have h1 := inline_slice_eq_baseList e file hm hsl 0 e.length (by omega)
    rw [Nat.add_zero] at h1
    exact h1
  simp only [FileContig.sequence, hTO]
  rw [if_neg (by omega)]
  simp only [hread, hslice,
    decode_baseList e file hm 0 e.length (by omega)]

lemma get_region_offsets_none_iff (idx : FaiIndex) (chr : String)
    (start stop : Nat) :
    idx.get_region_offsets chr start stop = .ok none
      ↔ (idx.entries chr = none ∨ ∃ e, idx.entries chr = some e ∧
          (start ≥ e.length ∨ stop > e.length ∨ start ≥ stop)) := by
  cases he : idx.entries chr with
  | none => simp [FaiIndex.get_region_offsets, he]
  | some e =>
    simp only [FaiIndex.get_region_offsets, he]
    by_cases hb : start ≥ e.length ∨ stop > e.length ∨ start ≥ stop
    · rw [if_pos hb]
      simp [hb]
    · rw [if_neg hb]
      constructor
      · intro h
        by_cases hz : e.line_bases = 0
        · rw [if_pos hz] at h
          exact absurd h (by simp)
        · rw [if_neg hz] at h
          exact absurd h (by simp)
      · intro h
        rcases h with h | ⟨e2, he2, hbd⟩
        · exact Option.noConfusion h
        · rw [Option.some.injEq] at he2
          rw [← he2] at hbd
          exact absurd hbd hb

lemma fromReaderAux_error (lines : List String) :
    ∀ m0, (∃ l ∈ lines, parsedLine l = none) →
      fromReaderAux lines m0 = .error .ParseError := by
  induction lines with
  | nil =>
    intro m0 h
    rcases h with ⟨l, hl, _⟩
    exact absurd hl (List.not_mem_nil l)
  | cons l rest ih =>
    intro m0 h
    cases hp : parse_fai_line (l.data ++ ['\n']) with
    | none => simp only [fromReaderAux, hp]
    | some pe =>
      obtain ⟨r, e⟩ := pe
      simp only [fromReaderAux, hp]
      rcases h with ⟨l2, hl2, hfail⟩
      rcases List.mem_cons.mp hl2 with heq | hmem
      · exfalso
        rw [heq] at hfail
        unfold parsedLine at hfail
        rw [hp] at hfail
        simp at hfail
      · exact ih _ ⟨l2, hmem, hfail⟩

lemma lastWins_cons (e : FaiEntry) (es : List FaiEntry) (name : String) :
    lastWins (e :: es) name
      = (match lastWins es name with
          | some x => some x
          | none => if name = e.name then some e else none) := rfl

lemma fromReaderAux_lookup (lines : List String) :
    ∀ m0 m, fromReaderAux lines m0 = .ok m →
      ∀ name, m name
        = (match lastWins (extractEntries lines) name with
            | some x => some x
            | none => m0 name) := by
  induction lines with
  | nil =>
    intro m0 m hok name
    unfold fromReaderAux at hok
    injection hok with hm
    rw [← hm]
    rfl
  | cons l rest ih =>
    intro m0 m hok name
    cases hp : parse_fai_line (l.data ++ ['\n']) with
    | none =>
      simp only [fromReaderAux, hp] at hok
      exact Except.noConfusion hok
    | some pe =>
      obtain ⟨r, e⟩ := pe
      simp only [fromReaderAux, hp] at hok
      have hrec := ih _ _ hok name
      have hext : extractEntries (l :: rest) = e :: extractEntries rest := by
        unfold extractEntries parsedLine
        rw [List.filterMap_cons, hp]
        rfl
      rw [hext, hrec, lastWins_cons]
      cases hlw : lastWins (extractEntries rest) name with
      | some x => rfl
      | none =>
        by_cases hn : name = e.name
        · simp [insertEntry, hn]
        · simp [insertEntry, hn]

lemma from_reader_error (lines : List String)
    (h : ∃ l ∈ lines, parsedLine l = none) :
    FaiIndex.from_reader lines = .error .ParseError := by
  unfold FaiIndex.from_reader
  rw [fromReaderAux_error lines _ h]

lemma from_reader_lookup (lines : List String) (m : FaiIndex)
    (h : FaiIndex.from_reader lines = .ok m) (name : String) :
    m.entries name = lastWins (extractEntries lines) name := by
  unfold FaiIndex.from_reader at h
  cases haux : fromReaderAux lines (fun _ => none) with
  | error er => rw [haux] at h; exact Except.noConfusion h
  | ok m0 =>
    rw [haux] at h
    injection h with hm
    rw [← hm]
    show m0 name = _
    rw [fromReaderAux_lookup lines _ _ haux name]
    cases lastWins (extractEntries lines) name with
    | some x => rfl
    | none => rfl

lemma parse_u64_lt (cs : List Char) (v : Nat) (rest : List Char)
    (h : parse_u64 cs = some (v, rest)) : v < 2 ^ 64 := by
  simp only [parse_u64] at h
  split at h
  · exact Option.noConfusion h
  · split at h
    · rename_i hlt
      rw [Option.some.injEq, Prod.mk.injEq] at h
      obtain ⟨h1, _⟩ := h
      rw [← h1]
      exact hlt
    · exact Option.noConfusion h

/-- Entry with the claim C1 example geometry and length 16:
`offset = 6, line_bases = 12, line_width = 13`. -/
def centry3 : FaiEntry := ⟨"chr1", 16, 6, 12, 13⟩

/-- Index holding exactly `centry3`. -/
def cIdx3 : FaiIndex := ⟨insertEntry (fun _ => none) centry3⟩

/-- Counterexample for C1: the formula pair is not always returned — the
`u64` offset arithmetic wraps.  The parser accepts an entry with
`offset = 2^64 - 1, line_bases = 1, line_width = 2, length = 3`; the
bounds-accepted range `[1, 2)` has formula value `2^64 + 1` for `start`,
but translation returns the wrapped offsets `(1, 3)`. -/
theorem c1_counterexample :
    parse_fai_line (hLine.data ++ ['\n']) = some ([], hEntry) ∧
    hIdx.entries ("h") = some hEntry ∧
    1 < hEntry.length ∧ 2 ≤ hEntry.length ∧
    hIdx.get_region_offsets ("h") 1 2 = .ok (some (1, 3)) ∧
    hEntry.offset + 1 / hEntry.line_bases * hEntry.line_width
        + 1 % hEntry.line_bases = 2 ^ 64 + 1 ∧
    (1 : Nat) ≠ 2 ^ 64 + 1 :=
  ⟨by decide, by decide, by decide, by decide, by decide, by decide,
    by decide⟩

/-- Claim C1 as amended: for every index entry with positive `line_bases`
and every coordinate range accepted by the bounds checks, translation
returns, for `start` and `stop` independently, the byte offset
`offset + (coord / line_bases) * line_width + coord % line_bases` reduced
modulo 2^64 (the wrapping `u64` arithmetic); whenever both formula values
fit in a `u64` the returned pair is exactly the formula pair. -/
theorem c1_amended (idx : FaiIndex) (chr : String) (e : FaiEntry)
    (he : idx.entries chr = some e) (hlb : 1 ≤ e.line_bases)
    (start stop : Nat) (h1 : start < e.length) (h2 : stop ≤ e.length)
    (h3 : start < stop) :
    idx.get_region_offsets chr start stop
      = .ok (some
          (wrap64 (e.offset + start / e.line_bases * e.line_width
            + start % e.line_bases),
           wrap64 (e.offset + stop / e.line_bases * e.line_width
            + stop % e.line_bases))) ∧
    (e.offset + start / e.line_bases * e.line_width
        + start % e.line_bases < 2 ^ 64 →
     e.offset + stop / e.line_bases * e.line_width
        + stop % e.line_bases < 2 ^ 64 →
     idx.get_region_offsets chr start stop
      = .ok (some
          (e.offset + start / e.line_bases * e.line_width
            + start % e.line_bases,
           e.offset + stop / e.line_bases * e.line_width
            + stop % e.line_bases))) := by
  have hacc := get_region_offsets_accepted idx chr e he hlb h1 h2 h3
  refine ⟨hacc, fun hs ht => ?_⟩
  rw [hacc]
  unfold wrap64 byteOffset
  rw [Nat.mod_eq_of_lt hs, Nat.mod_eq_of_lt ht]

/-- Witness for the amended C1, instantiated at the claim's own example:
an entry with `offset = 6, line_bases = 12, line_width = 13` and length
16 maps the range `[12, 16)` to the byte offsets 19 and 23. -/
theorem c1_amended_witness :
    cIdx3.get_region_offsets ("chr1") 12 16 = .ok (some (19, 23)) := by
  rw [(c1_amended cIdx3 ("chr1") centry3 (by decide) (by decide) 12 16
    (by decide) (by decide) (by decide)).2 (by decide) (by decide)]
  decide

/-- Claim C2: for every indexed contig and every valid range
`start < stop ≤ length` (the entry satisfying
`line_width ≥ line_bases ≥ 1` and the file matching the index's
fixed-width line-wrapped layout), `region_offsets` returns byte offsets
with `byte_end > byte_start`, and the facade's `read_region` returns a
sequence of exactly `stop - start` characters containing no terminator
byte. -/
theorem c2_claim (idx : FaiIndex) (file : List Nat) (chr : String)
    (e : FaiEntry) (he : idx.entries chr = some e)
    (hlb : 1 ≤ e.line_bases) (hlw : e.line_bases ≤ e.line_width)
    (hm : matchesLayout file e) (start stop : Nat)
    (h3 : start < stop) (h2 : stop ≤ e.length) :
    (∃ bs be, idx.get_region_offsets chr start stop = .ok (some (bs, be))
        ∧ bs < be) ∧
    (∃ d, Fasta.read_region (some idx) file chr start stop = .ok (.ok d)
        ∧ d.length = stop - start
        ∧ ∀ b ∈ d, b ≠ 10 ∧ b ≠ 13) := by
  constructor
  · exact ⟨byteOffset e start, byteOffset e stop,
      get_region_offsets_accepted_u64 idx chr file e he hlb hlw hm
        (by omega) h2 h3,
      byteOffset_lt_mono e hlb hlw h3⟩
  · refine ⟨baseList e file start (stop - start),
      Fasta_read_region_ok idx file chr e he hlb hlw hm h3 h2,
      length_baseList .., ?_⟩
    intro b hb
    unfold baseList at hb
    obtain ⟨t, ht, hbt⟩ := List.mem_map.mp hb
    have htk := List.mem_range.mp ht
    have hterm := (hm.1 (start + t) (by omega)).2.1
    rw [hbt] at hterm
    unfold termByte at hterm
    constructor <;> intro hcon <;> rw [hcon] at hterm <;> simp at hterm

/-- Witness for C2 at the repository's fixture: reading `[0, 4)` of `chr1`
yields four bytes, none a terminator. -/
theorem c2_claim_witness :
    (∃ bs be, cIdx1.get_region_offsets ("chr1") 0 4 = .ok (some (bs, be))
        ∧ bs < be) ∧
    (∃ d, Fasta.read_region (some cIdx1) cFile1 ("chr1") 0 4 = .ok (.ok d)
        ∧ d.length = 4 - 0
        ∧ ∀ b ∈ d, b ≠ 10 ∧ b ≠ 13) :=
  c2_claim cIdx1 cFile1 ("chr1") centry1 (by decide) (by decide)
    (by decide) (by decide) 0 4 (by decide) (by decide)

/-- Claim C3: region translation returns none exactly when the name is
unknown, or `start ≥ length`, or `stop > length`, or `start ≥ stop`; in
that case the facade read signals `InvalidRegion` while the Source-level
read returns no result. -/
theorem c3_claim (idx : FaiIndex) (file : List Nat) (chr : String)
    (start stop : Nat) :
    (idx.get_region_offsets chr start stop = .ok none
      ↔ (idx.entries chr = none ∨ ∃ e, idx.entries chr = some e ∧
          (start ≥ e.length ∨ stop > e.length ∨ start ≥ stop))) ∧
    (idx.get_region_offsets chr start stop = .ok none →
      Fasta.read_region (some idx) file chr start stop
          = .ok (.error .InvalidRegion) ∧
      FileContig.read_region (some idx) chr file start stop = .ok none) :=
  ⟨get_region_offsets_none_iff idx chr start stop,
   fun h => ⟨Fasta_read_region_invalid idx file chr start stop h,
     FileContig_read_region_none idx chr file start stop h⟩⟩

/-- Witness for C3 at the degenerate range `[5, 5)` of the fixture. -/
theorem c3_claim_witness :
    Fasta.read_region (some cIdx1) cFile1 ("chr1") 5 5
        = .ok (.error .InvalidRegion) ∧
    FileContig.read_region (some cIdx1) ("chr1") cFile1 5 5 = .ok none :=
  (c3_claim cIdx1 cFile1 ("chr1") 5 5).2 (by decide)

/-- Counterexample for C4: the InMemory-backed and FileBacked-backed
Sources are not equivalent.  (a) On the fixture contig, the degenerate
region `[3, 3)` yields `some` of the empty sequence from the in-memory
source but no result from the file-backed source.  (b) On a two-line
contig, eager materialization decodes only bytes `[offset, offset+length)`
— losing one base per line break — so the region `[8, 16)` yields no
result from the in-memory source while the file-backed source returns the
eight bases of the second line. -/
theorem c4_counterexample :
    (Fasta.read_mmap_tid (some cIdx1) cFile1 ("chr1")
        = .ok (.ok ⟨"chr1", .memory cSeq1⟩) ∧
      MemoryContig.read_region cSeq1 3 3 = some [] ∧
      FileContig.read_region (some cIdx1) ("chr1") cFile1 3 3 = .ok none) ∧
    (matchesLayout cFile2 centry2 ∧
      Fasta.read_mmap_tid (some cIdx2) cFile2 ("c")
        = .ok (.ok ⟨"c", .memory cSeq2⟩) ∧
      MemoryContig.read_region cSeq2 8 16 = none ∧
      FileContig.read_region (some cIdx2) ("c") cFile2 8 16
        = .ok (some [66, 66, 66, 66, 66, 66, 66, 66])) :=
  ⟨⟨rfl, by decide, by decide⟩, ⟨by decide, rfl, by decide, by decide⟩⟩

/-- Claim C4 as amended: for a contig whose eager materialization is
complete (stored within a single line, `length ≤ line_bases`, under the
layout invariant) and for non-degenerate regions (`start < stop`), a read
through the InMemory-backed Source and a read through the FileBacked
Source return byte-identical decoded output, agreeing on which regions
yield a result. -/
theorem c4_amended (idx : FaiIndex) (file : List Nat) (tid : String)
    (e : FaiEntry) (he : idx.entries tid = some e) (hlb : 1 ≤ e.line_bases)
    (hlw : e.line_bases ≤ e.line_width) (hm : matchesLayout file e)
    (hsl : e.length ≤ e.line_bases) (start stop : Nat) (hss : start < stop)
    (memC fileC : Contig)
    (hmem : Fasta.read_mmap_tid (some idx) file tid = .ok (.ok memC))
    (hfile : Fasta.read_io_tid (some idx) tid = .ok fileC) :
    memC.source.read_region file start stop
      = fileC.source.read_region file start stop := by
  rw [read_mmap_tid_ok idx file tid e he hm hlw hsl] at hmem
  have hmemC : memC = ⟨tid, .memory (baseList e file 0 e.length)⟩ := by
    injection hmem with h
    injection h with h2
    exact h2.symm
  have hfileC : fileC = ⟨tid, .fileBacked tid (some idx)⟩ := by
    unfold Fasta.read_io_tid at hfile
    injection hfile with h
    exact h.symm
  subst hmemC hfileC
  show PResult.ok
      (MemoryContig.read_region (baseList e file 0 e.length) start stop)
    = FileContig.read_region (some idx) tid file start stop
  by_cases hc : stop ≤ e.length
  · rw [FileContig_read_region_ok idx file tid e he hlb hlw hm hss hc]
    unfold MemoryContig.read_region
    rw [length_baseList]
    rw [if_neg (by omega)]
    rw [baseList_drop_take e file
      (show start + (stop - start) ≤ e.length by omega)]
  · rw [FileContig_read_region_none idx tid file start stop
      ((get_region_offsets_none_iff idx tid start stop).mpr
        (Or.inr ⟨e, he, by omega⟩))]
    unfold MemoryContig.read_region
    rw [length_baseList, if_pos (by omega)]

/-- Witness for the amended C4 at the fixture: region `[4, 8)` of `chr1`
through both sources. -/
theorem c4_amended_witness :
    (Contig.mk ("chr1") (.memory cSeq1)).source.read_region cFile1 4 8
      = (Contig.mk ("chr1")
          (.fileBacked ("chr1") (some cIdx1))).source.read_region cFile1 4 8 :=
  c4_amended cIdx1 cFile1 ("chr1") centry1 (by decide) (by decide)
    (by decide) (by decide) (by decide) 4 8 (by decide)
    ⟨"chr1", .memory cSeq1⟩ ⟨"chr1", .fileBacked ("chr1") (some cIdx1)⟩
    rfl rfl

/-- Counterexample for C5: for a multi-line contig the byte range
`[offset, offset+length)` does not cover the stored line-wrapped
representation, and a FileBacked `sequence()` read over it yields fewer
than `length` characters (15 instead of 16 on a two-line contig whose
layout is otherwise exactly as indexed). -/
theorem c5_counterexample :
    matchesLayout cFile2 centry2 ∧
    cIdx2.entries ("c") = some centry2 ∧
    cIdx2.get_tid_offsets ("c") = some (0, 16) ∧
    FileContig.sequence (some cIdx2) ("c") cFile2 = .ok (some cSeq2) ∧
    cSeq2.length = 15 ∧ centry2.length = 16 :=
  ⟨by decide, by decide, by decide, by decide, by decide, by decide⟩

/-- Claim C5 as amended: whole-contig translation returns none for an
unknown name and, for every indexed name, the pair
`(offset, offset + length)` with the sum reduced modulo 2^64 (the
wrapping `u64` addition); whenever `offset + length` fits in a `u64` that
is exactly the claimed `[offset, offset+length)`.  For a contig stored
within a single line (`length ≤ line_bases ≤ line_width`, under the
layout invariant) this range covers the whole stored representation, so a
FileBacked `sequence()` read yields the complete decoded contig of
exactly `length` characters.  (For longer contigs the range falls short
of the wrapped representation.) -/
theorem c5_amended (idx : FaiIndex) (file : List Nat) (tid : String) :
    (idx.entries tid = none → idx.get_tid_offsets tid = none) ∧
    (∀ e, idx.entries tid = some e →
      idx.get_tid_offsets tid
        = some (e.offset, wrap64 (e.offset + e.length))) ∧
    (∀ e, idx.entries tid = some e → e.offset + e.length < 2 ^ 64 →
      idx.get_tid_offsets tid = some (e.offset, e.offset + e.length)) ∧
    (∀ e, idx.entries tid = some e → matchesLayout file e →
      e.line_bases ≤ e.line_width → e.length ≤ e.line_bases →
      FileContig.sequence (some idx) tid file
          = .ok (some (baseList e file 0 e.length)) ∧
      (baseList e file 0 e.length).length = e.length) :=
  ⟨fun h => get_tid_offsets_none idx tid h,
   fun e he => get_tid_offsets_some idx tid e he,
   fun e he h64 => get_tid_offsets_some_u64 idx tid e he h64,
   fun e he hm hlw hsl =>
     ⟨FileContig_sequence_inline idx file tid e he hm hlw hsl,
      length_baseList ..⟩⟩

/-- Witness for the amended C5 at the fixture contig `chr1`. -/
theorem c5_amended_witness :
    cIdx1.get_tid_offsets ("chr1") = some (6, 18) ∧
    FileContig.sequence (some cIdx1) ("chr1") cFile1
        = .ok (some (baseList centry1 cFile1 0 12)) ∧
    (baseList centry1 cFile1 0 12).length = 12 := by
  refine ⟨?_, ?_, ?_⟩
  · rw [(c5_amended cIdx1 cFile1 ("chr1")).2.2.1 centry1 (by decide)
      (by decide)]
    decide
  · exact ((c5_amended cIdx1 cFile1 ("chr1")).2.2.2 centry1 (by decide)
      (by decide) (by decide) (by decide)).1
  · exact ((c5_amended cIdx1 cFile1 ("chr1")).2.2.2 centry1 (by decide)
      (by decide) (by decide) (by decide)).2

lemma readExactAt_cases (file : List Nat) (pos len : Nat) :
    readExactAt file pos len = .ok ((file.drop pos).take len)
      ∨ readExactAt file pos len = .error .IoError := by
  unfold readExactAt
  by_cases h : len ≤ file.length - pos
  · left
    rw [if_pos h]
  · right
    rw [if_neg h]

/-- Counterexample for C6: the facade does not always reach the seek/read
once translation succeeds.  The parser accepts the malformed entry
`a\t4\t0\t4\t2` (with `line_width < line_bases`); for the bounds-accepted
range `[3, 4)` translation returns byte offsets with end 2 below start 3,
and `read_region` crashes computing the buffer length `end - start`
instead of returning any outcome of a read. -/
theorem c6_counterexample :
    parse_fai_line (aLine.data ++ ['\n']) = some ([], aEntry) ∧
    aIdx.entries ("a") = some aEntry ∧
    aIdx.get_region_offsets ("a") 3 4 = .ok (some (3, 2)) ∧
    Fasta.read_region (some aIdx) aFile ("a") 3 4 = .subOverflow ∧
    Fasta.read_region (some aIdx) aFile ("a") 3 4
        ≠ .ok (Except.map decodeBytes (readExactAt aFile 3 (2 - 3))) :=
  ⟨by decide, by decide, by decide, rfl, fun hcon => PResult.noConfusion hcon⟩

/-- Claim C6 as amended: the facade's `read_region` fails with `NoFAIDX`
whenever no index is attached, for every name and range; with an index
attached it fails with `InvalidRegion` exactly when translation returns
none; when translation returns byte offsets with start at most end it
performs the seek + read and propagates the outcome verbatim (I/O errors
are returned to the caller, not collapsed); and when translation returns
an end offset below the start (possible only for malformed entries with
`line_width < line_bases`) it crashes computing the buffer length instead
of performing any read. -/
theorem c6_amended (file : List Nat) (tid : String) (start stop : Nat) :
    Fasta.read_region none file tid start stop = .ok (.error .NoFAIDX) ∧
    (∀ idx : FaiIndex,
      (Fasta.read_region (some idx) file tid start stop
          = .ok (.error .InvalidRegion)
        ↔ idx.get_region_offsets tid start stop = .ok none)) ∧
    (∀ (idx : FaiIndex) (bs be : Nat),
      idx.get_region_offsets tid start stop = .ok (some (bs, be)) →
      bs ≤ be →
      Fasta.read_region (some idx) file tid start stop
        = .ok (Except.map decodeBytes (readExactAt file bs (be - bs)))) ∧
    (∀ (idx : FaiIndex) (bs be : Nat),
      idx.get_region_offsets tid start stop = .ok (some (bs, be)) →
      be < bs →
      Fasta.read_region (some idx) file tid start stop
        = .subOverflow) := by
  refine ⟨rfl, ?_, ?_, ?_⟩
  · intro idx
    constructor
    · intro h
      cases hg : idx.get_region_offsets tid start stop with
      | divZero =>
        exfalso
        simp only [Fasta.read_region, hg] at h
        exact PResult.noConfusion h
      | subOverflow =>
        exfalso
        simp only [Fasta.read_region, hg] at h
        exact PResult.noConfusion h
      | ok o =>
        cases o with
        | none => rfl
        | some pr =>
          obtain ⟨bs, be⟩ := pr
          exfalso
          simp only [Fasta.read_region, hg] at h
          by_cases hlt : be < bs
          · rw [if_pos hlt] at h
            exact PResult.noConfusion h
          · rw [if_neg hlt] at h
            rcases readExactAt_cases file bs (be - bs) with hre | hre <;>
              rw [hre] at h <;> simp at h
    · intro h
      exact Fasta_read_region_invalid idx file tid start stop h
  · intro idx bs be h hle
    simp only [Fasta.read_region, h]
    rw [if_neg (by omega)]
    rcases readExactAt_cases file bs (be - bs) with hre | hre <;>
      rw [hre] <;> rfl
  · intro idx bs be h hlt
    simp only [Fasta.read_region, h]
    rw [if_pos hlt]

/-- Witness for the amended C6: with no index the fixture read fails with
`NoFAIDX`; with the index attached, the degenerate range `[5, 5)` fails
with `InvalidRegion`, an accepted range propagates the read outcome, and
the malformed entry's inverted byte range crashes. -/
theorem c6_amended_witness :
    Fasta.read_region none cFile1 ("chr1") 0 4 = .ok (.error .NoFAIDX) ∧
    Fasta.read_region (some cIdx1) cFile1 ("chr1") 5 5
        = .ok (.error .InvalidRegion) ∧
    Fasta.read_region (some cIdx1) cFile1 ("chr1") 0 4
        = .ok (Except.map decodeBytes (readExactAt cFile1 6 (10 - 6))) ∧
    Fasta.read_region (some aIdx) aFile ("a") 3 4 = .subOverflow :=
  ⟨(c6_amended cFile1 ("chr1") 0 4).1,
   ((c6_amended cFile1 ("chr1") 5 5).2.1 cIdx1).mpr (by decide),
   (c6_amended cFile1 ("chr1") 0 4).2.2.1 cIdx1 6 10 (by decide)
     (by decide),
   (c6_amended aFile ("a") 3 4).2.2.2 aIdx 3 2 (by decide) (by decide)⟩

/-- Counterexample for C7: lazy single-contig materialization
(`read_io_tid`) does not fail with `InvalidRegion` on a name whose offsets
cannot be resolved — it succeeds, returning a deferred file-backed
contig. -/
theorem c7_counterexample :
    cIdx1.get_tid_offsets ("nope") = none ∧
    Fasta.read_io_tid (some cIdx1) ("nope")
        = .ok ⟨"nope", .fileBacked ("nope") (some cIdx1)⟩ ∧
    Fasta.read_io_tid (some cIdx1) ("nope") ≠ .error .InvalidRegion :=
  ⟨by decide, rfl, fun h => Except.noConfusion h⟩

/-- Claim C7 as amended: the eager materialization (`read_mmap_tid`) fails
with `InvalidRegion` whenever the name's offsets cannot be resolved; the
lazy one (`read_io_tid`) never fails at materialization time — it returns
a file-backed contig whose subsequent `sequence()` read yields no result
for such a name. -/
theorem c7_amended (idx : FaiIndex) (file : List Nat) (tid : String)
    (h : idx.get_tid_offsets tid = none) :
    Fasta.read_mmap_tid (some idx) file tid = .ok (.error .InvalidRegion) ∧
    Fasta.read_io_tid (some idx) tid
        = .ok ⟨tid, .fileBacked tid (some idx)⟩ ∧
    FileContig.sequence (some idx) tid file = .ok none := by
  refine ⟨?_, rfl, ?_⟩
  · simp only [Fasta.read_mmap_tid, h]
  · simp only [FileContig.sequence, h]

/-- Witness for the amended C7 at an unindexed name. -/
theorem c7_amended_witness :
    Fasta.read_mmap_tid (some cIdx1) cFile1 ("nope")
        = .ok (.error .InvalidRegion) ∧
    Fasta.read_io_tid (some cIdx1) ("nope")
        = .ok ⟨"nope", .fileBacked ("nope") (some cIdx1)⟩ ∧
    FileContig.sequence (some cIdx1) ("nope") cFile1 = .ok none :=
  c7_amended cIdx1 cFile1 ("nope") (by decide)

/-- Counterexample for C8: index loading accepts a line with
`line_bases = 0`, so the produced entry violates the claimed invariant
`line_width ≥ line_bases ≥ 1`. -/
theorem c8_counterexample :
    parse_fai_line (("x\t1\t0\t0\t0\n").data)
        = some ([], ⟨"x", 1, 0, 0, 0⟩) ∧
    extractEntries (["x\t1\t0\t0\t0"]) = [⟨"x", 1, 0, 0, 0⟩] ∧
    ¬ 1 ≤ (FaiEntry.mk ("x") 1 0 0 0).line_bases :=
  ⟨by decide, by decide, by decide⟩

/-- Claim C8 as amended: every entry obtained from a line the parser
accepts has its four numeric fields parsed as valid unsigned 64-bit values
(each below `2 ^ 64`, hence in particular non-negative), and the record is
immutable thereafter; the parser does not enforce
`line_width ≥ line_bases ≥ 1`. -/
theorem c8_amended (input rest : List Char) (e : FaiEntry)
    (h : parse_fai_line input = some (rest, e)) :
    e.length < 2 ^ 64 ∧ e.offset < 2 ^ 64 ∧ e.line_bases < 2 ^ 64 ∧
      e.line_width < 2 ^ 64 := by
  unfold parse_fai_line at h
  cases h1 : splitAtTab input with
  | none => rw [h1] at h; exact Option.noConfusion h
  | some pr1 =>
    obtain ⟨name, r1⟩ := pr1
    simp only [h1] at h
    cases h2 : expectTab r1 with
    | none => rw [h2] at h; exact Option.noConfusion h
    | some r2 =>
      simp only [h2] at h
      cases h3 : parse_u64 r2 with
      | none => rw [h3] at h; exact Option.noConfusion h
      | some pr3 =>
        obtain ⟨length, r3⟩ := pr3
        simp only [h3] at h
        cases h4 : expectTab r3 with
        | none => rw [h4] at h; exact Option.noConfusion h
        | some r4 =>
          simp only [h4] at h
          cases h5 : parse_u64 r4 with
          | none => rw [h5] at h; exact Option.noConfusion h
          | some pr5 =>
            obtain ⟨offset, r5⟩ := pr5
            simp only [h5] at h
            cases h6 : expectTab r5 with
            | none => rw [h6] at h; exact Option.noConfusion h
            | some r6 =>
              simp only [h6] at h
              cases h7 : parse_u64 r6 with
              | none => rw [h7] at h; exact Option.noConfusion h
              | some pr7 =>
                obtain ⟨line_bases, r7⟩ := pr7
                simp only [h7] at h
                cases h8 : expectTab r7 with
                | none => rw [h8] at h; exact Option.noConfusion h
                | some r8 =>
                  simp only [h8] at h
                  cases h9 : parse_u64 r8 with
                  | none => rw [h9] at h; exact Option.noConfusion h
                  | some pr9 =>
                    obtain ⟨line_width, r9⟩ := pr9
                    simp only [h9] at h
                    cases h10 : lineEnding r9 with
                    | none => rw [h10] at h; exact Option.noConfusion h
                    | some r10 =>
                      simp only [h10] at h
                      rw [Option.some.injEq, Prod.mk.injEq] at h
                      obtain ⟨_, hent⟩ := h
                      rw [← hent]
                      exact ⟨parse_u64_lt _ _ _ h3, parse_u64_lt _ _ _ h5,
                        parse_u64_lt _ _ _ h7, parse_u64_lt _ _ _ h9⟩

/-- Witness for the amended C8 at the repository's fixture line. -/
theorem c8_amended_witness :
    (FaiEntry.mk ("chr1") 12 6 12 13).length < 2 ^ 64 ∧
    (FaiEntry.mk ("chr1") 12 6 12 13).offset < 2 ^ 64 ∧
    (FaiEntry.mk ("chr1") 12 6 12 13).line_bases < 2 ^ 64 ∧
    (FaiEntry.mk ("chr1") 12 6 12 13).line_width < 2 ^ 64 :=
  c8_amended (("chr1\t12\t6\t12\t13\n").data) [] ⟨"chr1", 12, 6, 12, 13⟩
    (by decide)

/-- Claim C9: index building keeps, for each name, the entry of its final
occurrence (last-entry-wins over the insertion order of the parsed lines),
and fails with `ParseError` whenever some line fails to parse. -/
theorem c9_claim (lines : List String) :
    ((∃ l ∈ lines, parsedLine l = none) →
      FaiIndex.from_reader lines = .error .ParseError) ∧
    (∀ m, FaiIndex.from_reader lines = .ok m →
      ∀ name, m.entries name = lastWins (extractEntries lines) name) :=
  ⟨from_reader_error lines,
   fun m h name => from_reader_lookup lines m h name⟩

/-- Witness for C9: a malformed line forces `ParseError`; two lines with
the duplicate name `a` leave the second entry bound. -/
theorem c9_claim_witness :
    FaiIndex.from_reader (["nonsense"]) = .error .ParseError ∧
    (∃ m, FaiIndex.from_reader dupLines = .ok m ∧
      m.entries ("a") = lastWins (extractEntries dupLines) ("a") ∧
      m.entries ("a") = some ⟨"a", 7, 9, 7, 8⟩) := by
  constructor
  · exact (c9_claim (["nonsense"])).1 ⟨"nonsense", by simp, by decide⟩
  · refine ⟨_, rfl, (c9_claim dupLines).2 _ rfl ("a"), ?_⟩
    decide

/-- Claim C10: `get_region_offsets` divides with no zero guard — for every
index whose relevant entry has `line_bases ≥ 1` the computation never hits
the division by zero, and the precondition is necessary: an entry with
`line_bases = 0` and positive length, which the parser accepts, together
with a range passing the bounds checks, reaches the unguarded division. -/
theorem c10_claim :
    (∀ (idx : FaiIndex) (chr : String) (start stop : Nat),
      (∀ e, idx.entries chr = some e → 1 ≤ e.line_bases) →
      idx.get_region_offsets chr start stop ≠ .divZero) ∧
    (parse_fai_line (zLine.data ++ ['\n']) = some ([], zEntry) ∧
      zEntry.line_bases = 0 ∧ 0 < zEntry.length ∧
      zIdx.entries ("z") = some zEntry ∧
      zIdx.get_region_offsets ("z") 0 1 = .divZero) := by
  constructor
  · intro idx chr start stop h
    cases he : idx.entries chr with
    | none => simp [FaiIndex.get_region_offsets, he]
    | some e =>
      have hlb := h e he
      simp only [FaiIndex.get_region_offsets, he]
      by_cases hb : start ≥ e.length ∨ stop > e.length ∨ start ≥ stop
      · rw [if_pos hb]
        simp
      · rw [if_neg hb, if_neg (by omega)]
        simp
  · exact ⟨by decide, by decide, by decide, by decide, by decide⟩

/-- Witness for C10's totality direction at the fixture index, whose only
entry has `line_bases = 12 ≥ 1`. -/
theorem c10_claim_witness :
    cIdx1.get_region_offsets ("chr1") 0 4 ≠ .divZero :=
  c10_claim.1 cIdx1 ("chr1") 0 4 (fun e he => by
    have h2 : some centry1 = some e := he
    cases h2
    decide)
